import Mathlib

/-!
Verification development for the PlanarityTesting repository.

The repository's core (`src/api/app.py`, with a near-identical copy in
`src/app.py`) reduces a Kuratowski-subdivision certificate to a topological
minor by contracting degree-2 vertices (`get_kuratowski_minor`), classifies
the resulting minor (`get_kuratowski_type`), and renders graphs to SVG
(`graph_to_svg`), all driven by `visualize_planarity_test` and the
`/planarity` endpoint.

We embed the code shallowly:

* A graph (the `networkx.Graph` values the code manipulates) is a node list
  in insertion order together with an edge list of unordered pairs stored in
  canonical (sorted-endpoint) form.  The underlying library permits
  self-loops (stored as `(u, u)`) but not parallel edges, and our `addEdge`
  mirrors `nx.Graph.add_edge` exactly.  A self-loop contributes 2 to a
  node's degree, as in networkx.
* The reducer's unbounded `while` loop becomes a fuel-indexed loop
  (`reduceLoop`); `none` means the Python loop would not have terminated
  within the given fuel.  Each terminating iteration removes one node, so
  fuel `|V| + 1` is exactly enough for every run of the Python loop that
  terminates at all.
* Real (Python float) coordinates are modelled exactly as rationals.
* The SVG output is modelled as the abstract list of drawing elements the
  code appends (edge lines and node circles with their coordinates), which
  is what the rendering claims quantify over.
-/

namespace Planarity

/-- A graph value as manipulated by the code: node list in insertion order,
edge list of unordered pairs in canonical (sorted) form.  Self-loops are
representable as `(u, u)`, matching the underlying graph library. -/
structure Graph where
  nodes : List Nat
  edges : List (Nat × Nat)
deriving DecidableEq, Repr

/-- Canonical form of an unordered pair (sorted endpoints). -/
def canon (u v : Nat) : Nat × Nat := if u ≤ v then (u, v) else (v, u)

namespace Graph

/-- The empty graph `nx.Graph()`. -/
def empty : Graph := ⟨[], []⟩

/-- `G.has_edge(u, v)`. -/
def hasEdge (G : Graph) (u v : Nat) : Bool := decide (canon u v ∈ G.edges)

/-- `G.degree(u)`: each incident edge counts once, a self-loop counts
twice (networkx semantics). -/
def degree (G : Graph) (u : Nat) : Nat :=
  G.edges.countP (fun e => decide (e.1 = u)) + G.edges.countP (fun e => decide (e.2 = u))

/-- `list(G.neighbors(u))`, in node-iteration order; contains `u` itself
iff `u` has a self-loop. -/
def neighbors (G : Graph) (u : Nat) : List Nat :=
  G.nodes.filter (fun v => G.hasEdge u v)

/-- `G.remove_node(u)`: drop the node and every incident edge. -/
def removeNode (G : Graph) (u : Nat) : Graph :=
  ⟨G.nodes.filter (fun v => decide (v ≠ u)),
   G.edges.filter (fun e => decide (e.1 ≠ u ∧ e.2 ≠ u))⟩

/-- Insert a node at the end of the iteration order unless present. -/
def addNode (l : List Nat) (a : Nat) : List Nat := if a ∈ l then l else l ++ [a]

/-- `G.add_edge(u, v)` with networkx semantics: insert missing endpoints as
nodes, then record the edge unless it is already present.  `u = v` records
a self-loop; it is not rejected. -/
def addEdge (G : Graph) (u v : Nat) : Graph :=
  if canon u v ∈ G.edges then ⟨addNode (addNode G.nodes u) v, G.edges⟩
  else ⟨addNode (addNode G.nodes u) v, G.edges ++ [canon u v]⟩

/-- `G = nx.Graph(); G.add_edges_from(es)`. -/
def build (es : List (Nat × Nat)) : Graph :=
  es.foldl (fun G e => G.addEdge e.1 e.2) empty

/-- `G.remove_nodes_from(list(nx.isolates(G)))`: the isolate list is
materialised first, then the degree-0 nodes (which have no incident edges)
are removed. -/
def removeIsolates (G : Graph) : Graph :=
  ⟨G.nodes.filter (fun n => decide (G.degree n ≠ 0)),
   G.edges.filter (fun e => decide (G.degree e.1 ≠ 0 ∧ G.degree e.2 ≠ 0))⟩

/-- Well-formedness of every graph the code builds: no duplicate nodes, no
duplicate edges, every edge canonical with both endpoints present. -/
def WF (G : Graph) : Prop :=
  G.nodes.Nodup ∧ G.edges.Nodup ∧
    ∀ e ∈ G.edges, e.1 ≤ e.2 ∧ e.1 ∈ G.nodes ∧ e.2 ∈ G.nodes

/-- No edge joins a node to itself. -/
def NoSelfLoops (G : Graph) : Prop := ∀ e ∈ G.edges, e.1 ≠ e.2

instance : DecidablePred WF := fun G => by unfold WF; infer_instance

instance : DecidablePred NoSelfLoops := fun G => by unfold NoSelfLoops; infer_instance

end Graph

/-! ## The classifier (`get_kuratowski_type`) and its collaborators -/

/-- `is_complete_graph_custom` from the source: the empty graph is complete,
otherwise every node must have degree `n - 1`. -/
def is_complete_graph_custom (G : Graph) : Bool :=
  if G.nodes.length = 0 then true
  else G.nodes.all (fun n => decide (G.degree n = G.nodes.length - 1))

/-- `nx.is_bipartite`: the node set admits a 2-colouring with every edge
bichromatic (a side is given by the sublist of nodes coloured `true`). -/
def isBipartite (G : Graph) : Bool :=
  G.nodes.sublists.any (fun S =>
    G.edges.all (fun e => decide ((e.1 ∈ S) ↔ (e.2 ∈ S)) = false))

/-- One round of parity-BFS expansion: nodes at even distance from the root
grow the odd set through one more edge and vice versa. -/
def paritySpread (G : Graph) : List Nat × List Nat → List Nat × List Nat :=
  fun p =>
    ((p.1 ++ p.2.flatMap (fun n => G.neighbors n)).dedup,
     (p.2 ++ p.1.flatMap (fun n => G.neighbors n)).dedup)

/-- Iterate `paritySpread` a fixed number of times. -/
def parityIter (G : Graph) : Nat → List Nat × List Nat → List Nat × List Nat
  | 0, p => p
  | k + 1, p => parityIter G k (paritySpread G p)

/-- `nx.bipartite.sets(G)`: succeeds (on an undirected graph) exactly when
the graph is nonempty, connected and 2-colourable, returning the colour
class of the first node and its complement; on a disconnected, empty or
non-bipartite graph networkx raises, which the callers catch — modelled as
`none`.  The classes are computed as the even- and odd-distance sets from
the first node, saturated by `2·|V| + 1` rounds of expansion. -/
def bipartiteSets (G : Graph) : Option (List Nat × List Nat) :=
  match G.nodes with
  | [] => none
  | r :: _ =>
    let p := parityIter G (2 * G.nodes.length + 1) ([r], [])
    if G.nodes.all (fun n => decide (n ∈ p.1 ∨ n ∈ p.2)) then
      if p.1.all (fun n => decide (n ∉ p.2)) then some p else none
    else none

/-- The size test inside the `try` of rule 2:
`len(p1) == 3 and len(p2) == 3`, with exceptions from `bipartite.sets`
falling through. -/
def k33SizeCheck (G : Graph) : Bool :=
  match bipartiteSets G with
  | some p => decide (p.1.length = 3) && decide (p.2.length = 3)
  | none => false

/-- `get_kuratowski_type` from the source, as the flat first-match chain the
nested Python `if`s denote. -/
def get_kuratowski_type (G : Graph) : String :=
  if G.nodes.length = 5 && is_complete_graph_custom G then "K_5"
  else if G.nodes.length = 6 && isBipartite G && k33SizeCheck G then "K_3,3"
  else if decide (5 ≤ G.nodes.length) && is_complete_graph_custom G then "K_5 Subdivision"
  else if decide (6 ≤ G.nodes.length) && isBipartite G then "K_3,3 Subdivision"
  else "Kuratowski Minor"

/-- The five rules of spec §4.3, rules 1–4 as guard/label pairs (rule 5 is
the default of `firstMatchLabel`).  Rule 2's guard includes the bipartition
classes' sizes, with an erroring or inconclusive bipartition test falling
through. -/
def classifierRules : List ((Graph → Bool) × String) :=
  [(fun G => G.nodes.length = 5 && is_complete_graph_custom G, "K_5"),
   (fun G => G.nodes.length = 6 && isBipartite G && k33SizeCheck G, "K_3,3"),
   (fun G => decide (5 ≤ G.nodes.length) && is_complete_graph_custom G, "K_5 Subdivision"),
   (fun G => decide (6 ≤ G.nodes.length) && isBipartite G, "K_3,3 Subdivision")]

/-- First-match evaluation of a rule list, defaulting to the unresolved
label. -/
def firstMatchLabel (rules : List ((Graph → Bool) × String)) (G : Graph) : String :=
  match rules.find? (fun r => r.1 G) with
  | some r => r.2
  | none => "Kuratowski Minor"

/-! ## The reducer (`get_kuratowski_minor`) -/

/-- The head of `[n for n, d in dict(G.degree()).items() if d == 2]`:
the first degree-2 node in node-iteration order, if any. -/
def firstDegreeTwo (G : Graph) : Option Nat :=
  G.nodes.find? (fun n => decide (G.degree n = 2))

/-- One iteration of the reducer's `while` body on the chosen node `u`:
if `u` has exactly two (listed) neighbours `v1, v2`, bypass it — add the
edge `(v1, v2)` when `v1 ≠ v2` and it is absent — and remove `u`.
Otherwise the body does nothing (and the Python loop spins forever, since
`u` stays a degree-2 node). -/
def reduceStep (G : Graph) (u : Nat) : Graph :=
  match G.neighbors u with
  | [v1, v2] =>
    (if v1 ≠ v2 ∧ G.hasEdge v1 v2 = false then G.addEdge v1 v2 else G).removeNode u
  | _ => G

/-- The reducer's `while True` loop, fuel-indexed: `none` means the Python
loop has not terminated within `fuel` iterations (each terminating
iteration removes a node, so fuel `|V| + 1` covers every terminating
run). -/
def reduceLoop : Nat → Graph → Option Graph
  | 0, _ => none
  | fuel + 1, G =>
    match firstDegreeTwo G with
    | none => some G
    | some u => reduceLoop fuel (reduceStep G u)

/-- `get_kuratowski_minor` from the source: run the contraction loop (on a
copy — the pure embedding takes care of that), then delete the isolated
nodes.  `none` models the Python loop failing to terminate. -/
def get_kuratowski_minor (G : Graph) : Option Graph :=
  (reduceLoop (G.nodes.length + 1) G).map Graph.removeIsolates

/-! ## The renderer (`graph_to_svg`) -/

/-- A caller-supplied position map `pos : dict node -> (x, y)`, with exact
rational coordinates standing for the Python floats. -/
abbrev PosMap : Type := List (Nat × ℚ × ℚ)

/-- `n in pos` / `pos[n]`. -/
def lookupPos (pos : PosMap) (n : Nat) : Option (ℚ × ℚ) :=
  (pos.find? (fun p => decide (p.1 = n))).map (fun p => p.2)

/-- The bounding box computed by `_normalize_positions`: minima over the
supplied coordinates (over `[0]` when the map is empty) and spans with a
zero span replaced by `1.0`. -/
structure BBox where
  minX : ℚ
  minY : ℚ
  w : ℚ
  h : ℚ
deriving DecidableEq, Repr

/-- `min` of a nonempty coordinate list (`0` never arises: the callers pass
nonempty lists). -/
def qmin : List ℚ → ℚ
  | [] => 0
  | a :: t => t.foldl min a

/-- `max` of a nonempty coordinate list. -/
def qmax : List ℚ → ℚ
  | [] => 0
  | a :: t => t.foldl max a

/-- `xs = [x for x, y in pos.values()] if pos else [0]`. -/
def xcoords (pos : PosMap) : List ℚ :=
  if pos.isEmpty then [0] else pos.map (fun p => p.2.1)

/-- `ys = [y for x, y in pos.values()] if pos else [0]`. -/
def ycoords (pos : PosMap) : List ℚ :=
  if pos.isEmpty then [0] else pos.map (fun p => p.2.2)

/-- `max_c - min_c if max_c != min_c else 1.0`. -/
def span (l : List ℚ) : ℚ := if qmax l ≠ qmin l then qmax l - qmin l else 1

/-- `_normalize_positions` from the source. -/
def normalize_positions (pos : PosMap) : BBox :=
  ⟨qmin (xcoords pos), qmin (ycoords pos), span (xcoords pos), span (ycoords pos)⟩

/-- The `viewBox` emitted in the `<svg>` element. -/
structure ViewBox where
  minX : ℚ
  minY : ℚ
  w : ℚ
  h : ℚ
deriving DecidableEq, Repr

/-- The viewport computation of `graph_to_svg`: pad the normalized bounding
box by 12% of the larger span on every side. -/
def computeViewBox (pos : PosMap) : ViewBox :=
  let bb := normalize_positions pos
  let padding := max bb.w bb.h * (12 / 100)
  ⟨bb.minX - padding, bb.minY - padding, bb.w + 2 * padding, bb.h + 2 * padding⟩

/-- One `<line>` element, remembered with the node pair that produced it
and whether it was drawn in the highlight style. -/
structure EdgeLine where
  u : Nat
  v : Nat
  x1 : ℚ
  y1 : ℚ
  x2 : ℚ
  y2 : ℚ
  highlighted : Bool
deriving DecidableEq, Repr

/-- One node `<circle>` element (the centred `<text>` label is emitted
under the same guard and at the same coordinates, so it is carried by the
same record). -/
structure NodeCircle where
  node : Nat
  x : ℚ
  y : ℚ
deriving DecidableEq, Repr

/-- The normalisation `\x7btuple(sorted(e)) for e in highlight_edges\x7d`:
canonical pair order, duplicates collapsed. -/
def normalizeHighlights (hl : List (Nat × Nat)) : List (Nat × Nat) :=
  (hl.map (fun e => canon e.1 e.2)).dedup

/-- The first edge loop of `graph_to_svg`: a plain line for every graph
edge whose endpoints both have positions and whose canonical pair is not in
the highlight set. -/
def normalLines (G : Graph) (pos : PosMap) (hs : List (Nat × Nat)) : List EdgeLine :=
  G.edges.filterMap (fun e =>
    match lookupPos pos e.1, lookupPos pos e.2 with
    | some p1, some p2 =>
      if canon e.1 e.2 ∈ hs then none
      else some ⟨e.1, e.2, p1.1, p1.2, p2.1, p2.2, false⟩
    | _, _ => none)

/-- The second edge loop of `graph_to_svg`: a highlight-styled line for
every pair of the (normalised) highlight set whose endpoints both have
positions — the graph's edge set is not consulted. -/
def highlightLines (pos : PosMap) (hs : List (Nat × Nat)) : List EdgeLine :=
  hs.filterMap (fun e =>
    match lookupPos pos e.1, lookupPos pos e.2 with
    | some p1, some p2 => some ⟨e.1, e.2, p1.1, p1.2, p2.1, p2.2, true⟩
    | _, _ => none)

/-- All `<line>` elements of the document, in emission order. -/
def edgeLines (G : Graph) (pos : PosMap) (hl : List (Nat × Nat)) : List EdgeLine :=
  normalLines G pos (normalizeHighlights hl) ++ highlightLines pos (normalizeHighlights hl)

/-- The node loop of `graph_to_svg`: a circle (and label) for every graph
node that has a position. -/
def nodeCircles (G : Graph) (pos : PosMap) : List NodeCircle :=
  G.nodes.filterMap (fun n => (lookupPos pos n).map (fun p => ⟨n, p.1, p.2⟩))

/-- The drawing-relevant content of the SVG document `graph_to_svg`
assembles. -/
structure SvgDoc where
  viewBox : ViewBox
  title : Option String
  lines : List EdgeLine
  circles : List NodeCircle
deriving DecidableEq, Repr

/-- `graph_to_svg` from the source, as the abstract document. -/
def graph_to_svg (G : Graph) (pos : PosMap) (hl : List (Nat × Nat))
    (title : Option String) : SvgDoc :=
  ⟨computeViewBox pos, title, edgeLines G pos hl, nodeCircles G pos⟩

/-! ## `visualize_planarity_test` and the `/planarity` endpoint
(`src/api/app.py`) -/

/-- One entry of the request's `nodes` array; a `none` field stands for a
missing key or a value on which `float(...)` fails. -/
structure RawNode where
  id : Option Nat
  x : Option ℚ
  y : Option ℚ

/-- One entry of the request's `edges` array. -/
structure RawEdge where
  source : Option Nat
  target : Option Nat

/-- A request body that passed the endpoint's `'nodes' in data and 'edges'
in data` precheck. -/
structure GraphData where
  nodes : List RawNode
  edges : List RawEdge

/-- The comprehension `[(e['source'], e['target']) for e in
graph_data['edges']]`: the first missing field raises, aborting the whole
list. -/
def parseEdges : List RawEdge → Option (List (Nat × Nat))
  | [] => some []
  | e :: t =>
    match e.source, e.target with
    | some s, some tg => (parseEdges t).map (fun l => (s, tg) :: l)
    | _, _ => none

/-- The comprehension building `pos`; any missing or unconvertible field
raises. -/
def parsePos : List RawNode → Option PosMap
  | [] => some []
  | n :: t =>
    match n.id, n.x, n.y with
    | some i, some x, some y => (parsePos t).map (fun l => (i, x, y) :: l)
    | _, _, _ => none

/-- The 6-tuple `visualize_planarity_test` returns, with the slots named
after the variables of the success-path `return`. -/
structure VPTResult where
  svg_original : Option SvgDoc
  svg_subdivision : Option SvgDoc
  svg_minor : Option SvgDoc
  title : Option String
  kuratowski_type : Option String
  kuratowski_edges : Option (List (Nat × Nat))

/-- The planarity collaborator `nx.check_planarity(G, counterexample=True)`
is outside the repository; the pipeline is embedded relative to an
arbitrary oracle returning the flag and the optional counterexample
subgraph. -/
def PlanarityOracle := Graph → Bool × Option Graph

/-- `visualize_planarity_test` from `src/api/app.py`.  On a parsing
failure it returns `(None, None, None, None, "Data parsing error: ...",
None)` — note the message sits in the fifth slot (`kuratowski_type`), not
the fourth (`title`).  The Python exception text interpolated after the
colon is abstracted away. -/
def visualize_planarity_test (cp : PlanarityOracle) (gd : GraphData) : VPTResult :=
  match parseEdges gd.edges, parsePos gd.nodes with
  | some es, some pos =>
    let G := Graph.build es
    let r := cp G
    let title := if r.1 then "Graph is Planar"
      else "Graph is NON-Planar (Kuratowski Counterexample Found)"
    let svgOrig := graph_to_svg G pos [] (some title)
    match r.1, r.2 with
    | false, some cex =>
      let kEdges := cex.edges.map (fun e => canon e.1 e.2)
      let svgSub := graph_to_svg G pos kEdges (some "Intermediate Subdivision")
      let minor? := get_kuratowski_minor cex
      let ktype := match minor? with
        | some m => get_kuratowski_type m
        | none => "Kuratowski Minor"
      ⟨some svgOrig, some svgSub,
       (minor?.map (fun m => graph_to_svg m [] [] (some "Minimal Kuratowski Minor"))),
       some title, some ktype, some kEdges⟩
    | _, _ => ⟨some svgOrig, none, none, some title, none, some []⟩
  | _, _ =>
    ⟨none, none, none, none, some "Data parsing error", none⟩

/-- The JSON responses of the `/planarity` endpoint. -/
inductive ApiResponse where
  | clientError (err : Option String)
  | success (title : Option String) (isPlanar : Bool) (ktype : Option String)
deriving DecidableEq

/-- The endpoint body after its input precheck: on `svg_original is None`
it answers 400 with `\x7b"error": result_title\x7d` — the *title* slot. -/
def planarity_api (cp : PlanarityOracle) (gd : GraphData) : ApiResponse :=
  let r := visualize_planarity_test cp gd
  if r.svg_original.isNone then .clientError r.title
  else .success r.title r.svg_subdivision.isNone r.kuratowski_type

/-! ## The reducer's memory behaviour (`G_minor = subdivision_graph.copy()`) -/

/-- The two graph objects alive during `get_kuratowski_minor`: the caller's
`subdivision_graph` and the working copy `G_minor`. -/
structure ReducerMem where
  input : Graph
  gMinor : Graph
deriving DecidableEq, Repr

/-- Line `G_minor = subdivision_graph.copy()`: a fresh object with the same
value. -/
def reducerInit (G : Graph) : ReducerMem := ⟨G, G⟩

/-- The contraction loop acting on the store: every read and every mutation
in the loop body addresses `G_minor`; `subdivision_graph` is never
touched. -/
def reduceLoopMem : Nat → ReducerMem → Option ReducerMem
  | 0, _ => none
  | fuel + 1, s =>
    match firstDegreeTwo s.gMinor with
    | none => some s
    | some u => reduceLoopMem fuel ⟨s.input, reduceStep s.gMinor u⟩

/-- `get_kuratowski_minor` seen as acting on the store: the final
`remove_nodes_from(isolates)` also addresses `G_minor` only. -/
def get_kuratowski_minor_mem (G : Graph) : Option ReducerMem :=
  (reduceLoopMem (G.nodes.length + 1) (reducerInit G)).map
    (fun s => ⟨s.input, s.gMinor.removeIsolates⟩)

/-! ## Helper definitions for the development (proof-side only) -/

/-- The edges incident to `u`. -/
def incident (G : Graph) (u : Nat) : List (Nat × Nat) :=
  G.edges.filter (fun e => decide (e.1 = u) || decide (e.2 = u))

/-- The endpoint of `e` other than `u` (for `e` incident to `u` and not a
self-loop). -/
def otherEnd (u : Nat) (e : Nat × Nat) : Nat := if e.1 = u then e.2 else e.1

/-- The triangle: the smallest fully degree-2 cycle. -/
def triangleG : Graph := Graph.build [(0, 1), (1, 2), (0, 2)]

/-- K5 as the code builds it. -/
def k5G : Graph :=
  Graph.build [(0, 1), (0, 2), (0, 3), (0, 4), (1, 2), (1, 3), (1, 4), (2, 3), (2, 4), (3, 4)]

/-- A one-edge graph with a third positioned node, for the renderer
counterexample. -/
def cexGraph : Graph := Graph.build [(0, 1)]

/-- Positions for nodes 0, 1, 2. -/
def cexPos : PosMap := [(0, (0, 0)), (1, (1, 0)), (2, (0, 1))]

/-- A request whose first node entry lacks the `x` field. -/
def badGraphData : GraphData := ⟨[⟨some 0, none, some 1⟩], []⟩

/-- A trivial planarity oracle (the parse-error path never consults it). -/
def trivialOracle : PlanarityOracle := fun _ => (true, none)

/-! ## Basic lemmas: canonical pairs -/

theorem canon_or (u v : Nat) : canon u v = (u, v) ∨ canon u v = (v, u) := by
  unfold canon; split <;> simp

theorem canon_fst_le (u v : Nat) : (canon u v).1 ≤ (canon u v).2 := by
  unfold canon; split <;> simp <;> omega

theorem canon_comm (u v : Nat) : canon u v = canon v u := by
  unfold canon; split <;> split <;> simp_all <;> omega

theorem canon_of_le {e : Nat × Nat} (h : e.1 ≤ e.2) : canon e.1 e.2 = e := by
  unfold canon; simp [h]

theorem canon_fst_mem (u v : Nat) : (canon u v).1 = u ∨ (canon u v).1 = v := by
  rcases canon_or u v with h | h <;> simp [h]

theorem canon_snd_mem (u v : Nat) : (canon u v).2 = u ∨ (canon u v).2 = v := by
  rcases canon_or u v with h | h <;> simp [h]

theorem canon_ne_of_ne {u v : Nat} (h : u ≠ v) : (canon u v).1 ≠ (canon u v).2 := by
  rcases canon_or u v with h' | h' <;> simp [h'] <;> omega

theorem canon_eq_of_otherEnd {u : Nat} {e : Nat × Nat} (hc : e.1 ≤ e.2)
    (hi : e.1 = u ∨ e.2 = u) (hns : e.1 ≠ e.2) : canon u (otherEnd u e) = e := by
  unfold otherEnd
  rcases hi with h | h
  · subst h; simp only [if_pos rfl]; exact canon_of_le hc
  · subst h
    have h1 : e.1 ≠ e.2 := hns
    simp only [if_neg h1]
    rw [canon_comm]; exact canon_of_le hc

/-! ## Basic lemmas: counting -/

theorem countP_split (p q : Nat × Nat → Bool) (l : List (Nat × Nat)) :
    l.countP p = (l.filter q).countP p + (l.filter (fun a => ! q a)).countP p := by
  induction l with
  | nil => simp
  | cons a t ih =>
    by_cases hq : q a <;> by_cases hp : p a <;>
      simp [List.countP_cons, List.filter_cons, hq, hp, ih] <;> omega

theorem degree_eq_incident_length {G : Graph} (hns : G.NoSelfLoops) (u : Nat) :
    G.degree u = (incident G u).length := by
  unfold Graph.degree incident
  rw [← List.countP_eq_length_filter]
  have : ∀ l : List (Nat × Nat), (∀ e ∈ l, e.1 ≠ e.2) →
      l.countP (fun e => decide (e.1 = u)) + l.countP (fun e => decide (e.2 = u)) =
        l.countP (fun e => decide (e.1 = u) || decide (e.2 = u)) := by
    intro l hl
    induction l with
    | nil => simp
    | cons e t ih =>
      have he := hl e (by simp)
      have ht : ∀ x ∈ t, x.1 ≠ x.2 := fun x hx => hl x (List.mem_cons_of_mem _ hx)
      have ih' := ih ht
      by_cases h1 : e.1 = u <;> by_cases h2 : e.2 = u
      · exact absurd (h1.trans h2.symm) he
      all_goals (simp [List.countP_cons, h1, h2]; omega)
  exact this G.edges hns

theorem degree_pos_of_mem_fst {G : Graph} {e : Nat × Nat} (he : e ∈ G.edges) :
    0 < G.degree e.1 := by
  unfold Graph.degree
  have : 0 < G.edges.countP (fun x => decide (x.1 = e.1)) :=
    List.countP_pos_iff.mpr ⟨e, he, by simp⟩
  omega

theorem degree_pos_of_mem_snd {G : Graph} {e : Nat × Nat} (he : e ∈ G.edges) :
    0 < G.degree e.2 := by
  unfold Graph.degree
  have : 0 < G.edges.countP (fun x => decide (x.2 = e.2)) :=
    List.countP_pos_iff.mpr ⟨e, he, by simp⟩
  omega

theorem degree_eq_zero_of_not_mem {G : Graph} (hwf : G.WF) {n : Nat}
    (hn : n ∉ G.nodes) : G.degree n = 0 := by
  unfold Graph.degree
  have h1 : G.edges.countP (fun e => decide (e.1 = n)) = 0 := by
    rw [List.countP_eq_zero]
    intro e he
    have := (hwf.2.2 e he).2.1
    simp only [decide_eq_true_eq]
    intro h; exact hn (h ▸ this)
  have h2 : G.edges.countP (fun e => decide (e.2 = n)) = 0 := by
    rw [List.countP_eq_zero]
    intro e he
    have := (hwf.2.2 e he).2.2
    simp only [decide_eq_true_eq]
    intro h; exact hn (h ▸ this)
  omega

/-! ## Neighbours versus degree -/

theorem hasEdge_iff {G : Graph} {u v : Nat} :
    G.hasEdge u v = true ↔ canon u v ∈ G.edges := by
  unfold Graph.hasEdge; simp

theorem mem_neighbors_iff {G : Graph} {u v : Nat} :
    v ∈ G.neighbors u ↔ v ∈ G.nodes ∧ canon u v ∈ G.edges := by
  unfold Graph.neighbors
  rw [List.mem_filter, hasEdge_iff]

theorem not_self_mem_neighbors {G : Graph} (hns : G.NoSelfLoops) (u : Nat) :
    u ∉ G.neighbors u := by
  intro h
  rcases mem_neighbors_iff.mp h with ⟨-, hmem⟩
  have := hns _ hmem
  unfold canon at this
  simp at this

theorem neighbors_length_eq_degree {G : Graph} (hwf : G.WF) (hns : G.NoSelfLoops)
    (u : Nat) : (G.neighbors u).length = G.degree u := by
  rw [degree_eq_incident_length hns]
  have hperm : (G.neighbors u).Perm ((incident G u).map (otherEnd u)) := by
    have hn1 : (G.neighbors u).Nodup := hwf.1.filter _
    have hinc : ∀ e ∈ incident G u, e ∈ G.edges ∧ (e.1 = u ∨ e.2 = u) := by
      intro e he
      have := List.mem_filter.mp he
      exact ⟨this.1, by simpa using this.2⟩
    have hcanon : ∀ e ∈ incident G u, canon u (otherEnd u e) = e := by
      intro e he
      rcases hinc e he with ⟨hmem, hi⟩
      exact canon_eq_of_otherEnd (hwf.2.2 e hmem).1 hi (hns e hmem)
    have hn2 : ((incident G u).map (otherEnd u)).Nodup := by
      refine List.Nodup.map_on ?_ (hwf.2.1.filter _)
      intro x hx y hy hxy
      rw [← hcanon x hx, ← hcanon y hy, hxy]
    rw [List.perm_ext_iff_of_nodup hn1 hn2]
    intro v
    rw [mem_neighbors_iff, List.mem_map]
    constructor
    · rintro ⟨hv, hmem⟩
      have huv : u ≠ v := by
        intro h; subst h
        have := hns _ hmem
        unfold canon at this; simp at this
      refine ⟨canon u v, ?_, ?_⟩
      · unfold incident
        rw [List.mem_filter]
        refine ⟨hmem, ?_⟩
        rcases canon_or u v with h | h <;> simp [h]
      · unfold otherEnd
        rcases canon_or u v with h | h <;> simp [h, Ne.symm huv]
    · rintro ⟨e, he, rfl⟩
      rcases hinc e he with ⟨hmem, hi⟩
      constructor
      · rcases hwf.2.2 e hmem with ⟨-, h1, h2⟩
        unfold otherEnd; split <;> assumption
      · rw [hcanon e he]; exact hmem
  rw [hperm.length_eq, List.length_map]

/-! ## Graph operations: preservation lemmas -/

theorem graph_eq {G H : Graph} (h1 : G.nodes = H.nodes) (h2 : G.edges = H.edges) :
    G = H := by cases G; cases H; simp_all

theorem nodup_append_one {α : Type} {l : List α} {a : α} (hn : l.Nodup) (h : a ∉ l) :
    (l ++ [a]).Nodup := by
  rw [List.nodup_append]
  exact ⟨hn, List.nodup_singleton a,
    fun x hx hx' => by simp at hx'; subst hx'; exact h hx⟩

theorem mem_addNode {l : List Nat} {a b : Nat} :
    b ∈ Graph.addNode l a ↔ b ∈ l ∨ b = a := by
  unfold Graph.addNode
  split
  · rename_i h
    refine ⟨Or.inl, ?_⟩
    rintro (hb | rfl)
    · exact hb
    · exact h
  · simp

theorem nodup_addNode {l : List Nat} {a : Nat} (hn : l.Nodup) :
    (Graph.addNode l a).Nodup := by
  unfold Graph.addNode; split
  · exact hn
  · exact nodup_append_one hn (by assumption)

theorem addNode_eq_of_mem {l : List Nat} {a : Nat} (h : a ∈ l) :
    Graph.addNode l a = l := by unfold Graph.addNode; simp [h]

theorem nodes_addEdge {G : Graph} {u v : Nat} :
    (G.addEdge u v).nodes = Graph.addNode (Graph.addNode G.nodes u) v := by
  unfold Graph.addEdge; split <;> rfl

theorem nodes_addEdge_of_mem {G : Graph} {u v : Nat} (hu : u ∈ G.nodes)
    (hv : v ∈ G.nodes) : (G.addEdge u v).nodes = G.nodes := by
  rw [nodes_addEdge, addNode_eq_of_mem hu, addNode_eq_of_mem hv]

theorem edges_addEdge_of_hasEdge {G : Graph} {u v : Nat} (h : G.hasEdge u v = true) :
    (G.addEdge u v).edges = G.edges := by
  unfold Graph.addEdge
  rw [if_pos (hasEdge_iff.mp h)]

theorem edges_addEdge_of_not {G : Graph} {u v : Nat} (h : G.hasEdge u v = false) :
    (G.addEdge u v).edges = G.edges ++ [canon u v] := by
  unfold Graph.addEdge
  rw [if_neg (fun hc => by simp [Graph.hasEdge, hc] at h)]

theorem mem_edges_addEdge {G : Graph} {u v : Nat} {e : Nat × Nat} (h : e ∈ G.edges) :
    e ∈ (G.addEdge u v).edges := by
  unfold Graph.addEdge; split <;> simp [h]

theorem hasEdge_addEdge_mono {G : Graph} {u v a b : Nat} (h : G.hasEdge a b = true) :
    (G.addEdge u v).hasEdge a b = true := by
  rw [hasEdge_iff] at h ⊢; exact mem_edges_addEdge h

theorem WF_addEdge {G : Graph} (hwf : G.WF) (u v : Nat) : (G.addEdge u v).WF := by
  obtain ⟨hn, he, hcan⟩ := hwf
  have hnodes : (Graph.addNode (Graph.addNode G.nodes u) v).Nodup :=
    nodup_addNode (nodup_addNode hn)
  have hu : u ∈ Graph.addNode (Graph.addNode G.nodes u) v :=
    mem_addNode.mpr (Or.inl (mem_addNode.mpr (Or.inr rfl)))
  have hv : v ∈ Graph.addNode (Graph.addNode G.nodes u) v := mem_addNode.mpr (Or.inr rfl)
  have hold : ∀ e ∈ G.edges, e.1 ≤ e.2 ∧
      e.1 ∈ Graph.addNode (Graph.addNode G.nodes u) v ∧
      e.2 ∈ Graph.addNode (Graph.addNode G.nodes u) v := by
    intro e hmem
    obtain ⟨h1, h2, h3⟩ := hcan e hmem
    exact ⟨h1, mem_addNode.mpr (Or.inl (mem_addNode.mpr (Or.inl h2))),
      mem_addNode.mpr (Or.inl (mem_addNode.mpr (Or.inl h3)))⟩
  unfold Graph.addEdge
  split
  · exact ⟨hnodes, he, hold⟩
  · refine ⟨hnodes, nodup_append_one he (by assumption), ?_⟩
    intro e hmem
    rcases List.mem_append.mp hmem with h | h
    · exact hold e h
    · have : e = canon u v := by simpa using h
      subst this
      refine ⟨canon_fst_le u v, ?_, ?_⟩
      · rcases canon_fst_mem u v with h' | h' <;> rw [h'] <;> assumption
      · rcases canon_snd_mem u v with h' | h' <;> rw [h'] <;> assumption

theorem NoSelfLoops_addEdge {G : Graph} (hns : G.NoSelfLoops) {u v : Nat}
    (huv : u ≠ v) : (G.addEdge u v).NoSelfLoops := by
  unfold Graph.addEdge
  split
  · exact hns
  · intro e hmem
    rcases List.mem_append.mp hmem with h | h
    · exact hns e h
    · have : e = canon u v := by simpa using h
      subst this
      exact canon_ne_of_ne huv

theorem addEdge_eq_self {G : Graph} (hwf : G.WF) {u v : Nat}
    (h : G.hasEdge u v = true) : G.addEdge u v = G := by
  have hmem := hasEdge_iff.mp h
  have hu : u ∈ G.nodes := by
    obtain ⟨-, h2, h3⟩ := hwf.2.2 _ hmem
    rcases canon_or u v with hc | hc <;> rw [hc] at h2 h3 <;> assumption
  have hv : v ∈ G.nodes := by
    obtain ⟨-, h2, h3⟩ := hwf.2.2 _ hmem
    rcases canon_or u v with hc | hc <;> rw [hc] at h2 h3 <;> assumption
  exact graph_eq (by rw [nodes_addEdge_of_mem hu hv]) (edges_addEdge_of_hasEdge h)

theorem nodes_removeNode {G : Graph} {u n : Nat} :
    n ∈ (G.removeNode u).nodes ↔ n ∈ G.nodes ∧ n ≠ u := by
  unfold Graph.removeNode
  simp [List.mem_filter]

theorem edges_removeNode {G : Graph} {u : Nat} {e : Nat × Nat}
    (h : e ∈ (G.removeNode u).edges) : e ∈ G.edges ∧ e.1 ≠ u ∧ e.2 ≠ u := by
  unfold Graph.removeNode at h
  have := List.mem_filter.mp h
  exact ⟨this.1, by simpa using this.2⟩

theorem mem_edges_removeNode {G : Graph} {u : Nat} {e : Nat × Nat}
    (h : e ∈ G.edges) (h1 : e.1 ≠ u) (h2 : e.2 ≠ u) : e ∈ (G.removeNode u).edges := by
  unfold Graph.removeNode
  exact List.mem_filter.mpr ⟨h, by simp [h1, h2]⟩

theorem WF_removeNode {G : Graph} (hwf : G.WF) (u : Nat) : (G.removeNode u).WF := by
  obtain ⟨hn, he, hcan⟩ := hwf
  refine ⟨hn.filter _, he.filter _, ?_⟩
  intro e hmem
  obtain ⟨h, h1, h2⟩ := edges_removeNode hmem
  obtain ⟨hc, hm1, hm2⟩ := hcan e h
  exact ⟨hc, nodes_removeNode.mpr ⟨hm1, h1⟩, nodes_removeNode.mpr ⟨hm2, h2⟩⟩

theorem NoSelfLoops_removeNode {G : Graph} (hns : G.NoSelfLoops) (u : Nat) :
    (G.removeNode u).NoSelfLoops :=
  fun e he => hns e (edges_removeNode he).1

theorem not_mem_nodes_removeNode {G : Graph} (u : Nat) :
    u ∉ (G.removeNode u).nodes := fun h => (nodes_removeNode.mp h).2 rfl

theorem length_nodes_removeNode_lt {G : Graph} {u : Nat} (h : u ∈ G.nodes) :
    (G.removeNode u).nodes.length < G.nodes.length := by
  unfold Graph.removeNode
  have : ∀ l : List Nat, u ∈ l → (l.filter (fun v => decide (v ≠ u))).length < l.length := by
    intro l hl
    induction l with
    | nil => simp at hl
    | cons a t ih =>
      rcases List.mem_cons.mp hl with h' | hm
      · simp only [List.filter_cons]
        rw [if_neg (by simp [h'])]
        have := List.length_filter_le (fun v => decide (v ≠ u)) t
        simp only [List.length_cons]
        omega
      · simp only [List.filter_cons]
        split
        · simpa using ih hm
        · have := ih hm
          simp only [List.length_cons]
          omega
  exact this G.nodes h

/-! ## Degree arithmetic -/

theorem edges_removeNode_eq (G : Graph) (u : Nat) :
    (G.removeNode u).edges = G.edges.filter (fun e => decide (e.1 ≠ u ∧ e.2 ≠ u)) := rfl

theorem degree_removeNode_le (G : Graph) (u w : Nat) :
    (G.removeNode u).degree w ≤ G.degree w := by
  unfold Graph.degree
  rw [edges_removeNode_eq]
  have h1 := (List.filter_sublist (l := G.edges)
    (p := fun e => decide (e.1 ≠ u ∧ e.2 ≠ u))).countP_le (p := fun e => decide (e.1 = w))
  have h2 := (List.filter_sublist (l := G.edges)
    (p := fun e => decide (e.1 ≠ u ∧ e.2 ≠ u))).countP_le (p := fun e => decide (e.2 = w))
  omega

theorem degree_removeNode_self (G : Graph) (u : Nat) :
    (G.removeNode u).degree u = 0 := by
  unfold Graph.degree
  rw [edges_removeNode_eq]
  have h1 : ((G.edges.filter (fun e => decide (e.1 ≠ u ∧ e.2 ≠ u))).countP
      (fun e => decide (e.1 = u))) = 0 := by
    rw [List.countP_eq_zero]
    intro e he
    have h := (List.mem_filter.mp he).2
    rw [decide_eq_true_eq] at h
    rw [decide_eq_true_eq]
    exact h.1
  have h2 : ((G.edges.filter (fun e => decide (e.1 ≠ u ∧ e.2 ≠ u))).countP
      (fun e => decide (e.2 = u))) = 0 := by
    rw [List.countP_eq_zero]
    intro e he
    have h := (List.mem_filter.mp he).2
    rw [decide_eq_true_eq] at h
    rw [decide_eq_true_eq]
    exact h.2
  omega

theorem degree_removeNode_lt_of_hasEdge {G : Graph} {u w : Nat}
    (hw : G.hasEdge u w = true) :
    (G.removeNode u).degree w + 1 ≤ G.degree w := by
  have hmem := hasEdge_iff.mp hw
  unfold Graph.degree
  rw [edges_removeNode_eq]
  rw [countP_split (fun e => decide (e.1 = w)) (fun e => decide (e.1 ≠ u ∧ e.2 ≠ u)) G.edges,
    countP_split (fun e => decide (e.2 = w)) (fun e => decide (e.1 ≠ u ∧ e.2 ≠ u)) G.edges]
  have hq : (! decide ((canon u w).1 ≠ u ∧ (canon u w).2 ≠ u)) = true := by
    rcases canon_or u w with h | h <;> simp [h]
  have hpos : 0 < (G.edges.filter
        (fun e => ! decide (e.1 ≠ u ∧ e.2 ≠ u))).countP (fun e => decide (e.1 = w)) +
      (G.edges.filter
        (fun e => ! decide (e.1 ≠ u ∧ e.2 ≠ u))).countP (fun e => decide (e.2 = w)) := by
    have hmf : canon u w ∈ G.edges.filter (fun e => ! decide (e.1 ≠ u ∧ e.2 ≠ u)) :=
      List.mem_filter.mpr ⟨hmem, hq⟩
    rcases canon_or u w with h | h
    · have : 0 < (G.edges.filter
          (fun e => ! decide (e.1 ≠ u ∧ e.2 ≠ u))).countP (fun e => decide (e.2 = w)) :=
        List.countP_pos_iff.mpr ⟨canon u w, hmf, by simp [h]⟩
      omega
    · have : 0 < (G.edges.filter
          (fun e => ! decide (e.1 ≠ u ∧ e.2 ≠ u))).countP (fun e => decide (e.1 = w)) :=
        List.countP_pos_iff.mpr ⟨canon u w, hmf, by simp [h]⟩
      omega
  omega

theorem degree_addEdge_of_not {G : Graph} {u v : Nat} (h : G.hasEdge u v = false)
    (w : Nat) : (G.addEdge u v).degree w = G.degree w +
      ((if (canon u v).1 = w then 1 else 0) + (if (canon u v).2 = w then 1 else 0)) := by
  unfold Graph.degree
  rw [edges_addEdge_of_not h, List.countP_append, List.countP_append]
  by_cases h1 : (canon u v).1 = w <;> by_cases h2 : (canon u v).2 = w <;>
    simp [List.countP_cons, h1, h2] <;> omega

/-! ## The reducer's single step -/

theorem firstDegreeTwo_spec {G : Graph} {u : Nat} (h : firstDegreeTwo G = some u) :
    u ∈ G.nodes ∧ G.degree u = 2 :=
  ⟨List.mem_of_find?_eq_some h, by have := List.find?_some h; simpa using this⟩

theorem firstDegreeTwo_none_iff {G : Graph} :
    firstDegreeTwo G = none ↔ ∀ n ∈ G.nodes, G.degree n ≠ 2 := by
  unfold firstDegreeTwo
  rw [List.find?_eq_none]
  simp

theorem neighbors_pair {G : Graph} {u : Nat} (hwf : G.WF) (hns : G.NoSelfLoops)
    (hd : G.degree u = 2) :
    ∃ v1 v2, G.neighbors u = [v1, v2] ∧ v1 ≠ v2 ∧ v1 ∈ G.nodes ∧ v2 ∈ G.nodes ∧
      G.hasEdge u v1 = true ∧ G.hasEdge u v2 = true ∧ v1 ≠ u ∧ v2 ≠ u := by
  have hlen : (G.neighbors u).length = 2 := by
    rw [neighbors_length_eq_degree hwf hns]; exact hd
  obtain ⟨v1, v2, hnb⟩ := List.length_eq_two.mp hlen
  have hv1 : v1 ∈ G.neighbors u := by rw [hnb]; simp
  have hv2 : v2 ∈ G.neighbors u := by rw [hnb]; simp
  have hnodup : (G.neighbors u).Nodup := hwf.1.filter _
  rw [hnb] at hnodup
  have hne : v1 ≠ v2 := by
    have := (List.nodup_cons.mp hnodup).1
    simpa using this
  obtain ⟨hm1, he1⟩ := mem_neighbors_iff.mp hv1
  obtain ⟨hm2, he2⟩ := mem_neighbors_iff.mp hv2
  have hu1 : v1 ≠ u := fun h => not_self_mem_neighbors hns u (h ▸ hv1)
  have hu2 : v2 ≠ u := fun h => not_self_mem_neighbors hns u (h ▸ hv2)
  exact ⟨v1, v2, hnb, hne, hm1, hm2, hasEdge_iff.mpr he1, hasEdge_iff.mpr he2, hu1, hu2⟩

theorem reduceStep_eq {G : Graph} {u v1 v2 : Nat} (h : G.neighbors u = [v1, v2]) :
    reduceStep G u =
      (if v1 ≠ v2 ∧ G.hasEdge v1 v2 = false then G.addEdge v1 v2 else G).removeNode u := by
  unfold reduceStep
  rw [h]

theorem removeNode_package {G0 G : Graph} {u v1 v2 : Nat}
    (hwf' : G0.WF) (hns' : G0.NoSelfLoops) (hnodes' : G0.nodes = G.nodes)
    (hedge' : canon v1 v2 ∈ G0.edges) (hu : u ∈ G.nodes) (hu1 : v1 ≠ u) (hu2 : v2 ≠ u) :
    (G0.removeNode u).WF ∧ (G0.removeNode u).NoSelfLoops ∧
      u ∉ (G0.removeNode u).nodes ∧
      (∀ e ∈ (G0.removeNode u).edges, e.1 ≠ u ∧ e.2 ≠ u) ∧
      (G0.removeNode u).nodes.length < G.nodes.length ∧
      (G0.removeNode u).edges ≠ [] := by
  refine ⟨WF_removeNode hwf' u, NoSelfLoops_removeNode hns' u,
    not_mem_nodes_removeNode u, fun e he => (edges_removeNode he).2, ?_, ?_⟩
  · have := length_nodes_removeNode_lt (G := G0) (u := u) (by rw [hnodes']; exact hu)
    rwa [hnodes'] at this
  · have hmem : canon v1 v2 ∈ (G0.removeNode u).edges := by
      refine mem_edges_removeNode hedge' ?_ ?_
      · rcases canon_fst_mem v1 v2 with h | h <;> rw [h] <;> assumption
      · rcases canon_snd_mem v1 v2 with h | h <;> rw [h] <;> assumption
    exact List.ne_nil_of_mem hmem

theorem reduceStep_spec {G : Graph} {u : Nat} (hwf : G.WF) (hns : G.NoSelfLoops)
    (h : firstDegreeTwo G = some u) :
    (reduceStep G u).WF ∧ (reduceStep G u).NoSelfLoops ∧
      u ∉ (reduceStep G u).nodes ∧
      (∀ e ∈ (reduceStep G u).edges, e.1 ≠ u ∧ e.2 ≠ u) ∧
      (reduceStep G u).nodes.length < G.nodes.length ∧
      (reduceStep G u).edges ≠ [] := by
  obtain ⟨hu, hd⟩ := firstDegreeTwo_spec h
  obtain ⟨v1, v2, hnb, hne, hm1, hm2, he1, he2, hu1, hu2⟩ := neighbors_pair hwf hns hd
  rw [reduceStep_eq hnb]
  by_cases hc : v1 ≠ v2 ∧ G.hasEdge v1 v2 = false
  · rw [if_pos hc]
    refine removeNode_package (WF_addEdge hwf v1 v2) (NoSelfLoops_addEdge hns hne)
      (nodes_addEdge_of_mem hm1 hm2) ?_ hu hu1 hu2
    rw [edges_addEdge_of_not hc.2]
    simp
  · rw [if_neg hc]
    have hEdge : G.hasEdge v1 v2 = true := by
      cases hb : G.hasEdge v1 v2 with
      | false => exact absurd ⟨hne, hb⟩ hc
      | true => rfl
    exact removeNode_package hwf hns rfl (hasEdge_iff.mp hEdge) hu hu1 hu2

/-! ## The reducer's loop -/

theorem reduceLoop_zero (G : Graph) : reduceLoop 0 G = none := rfl

theorem reduceLoop_succ (f : Nat) (G : Graph) :
    reduceLoop (f + 1) G =
      match firstDegreeTwo G with
      | none => some G
      | some u => reduceLoop f (reduceStep G u) := rfl

theorem reduceLoop_succ_none {f : Nat} {G : Graph} (h : firstDegreeTwo G = none) :
    reduceLoop (f + 1) G = some G := by rw [reduceLoop_succ, h]

theorem reduceLoop_succ_some {f : Nat} {G : Graph} {u : Nat}
    (h : firstDegreeTwo G = some u) :
    reduceLoop (f + 1) G = reduceLoop f (reduceStep G u) := by rw [reduceLoop_succ, h]

theorem reduceLoop_exit : ∀ {f : Nat} {G H : Graph},
    reduceLoop f G = some H → firstDegreeTwo H = none := by
  intro f
  induction f with
  | zero => intro G H h; rw [reduceLoop_zero] at h; exact absurd h (by simp)
  | succ f ih =>
    intro G H h
    cases hfd : firstDegreeTwo G with
    | none =>
      rw [reduceLoop_succ_none hfd] at h
      exact (Option.some.inj h) ▸ hfd
    | some u =>
      rw [reduceLoop_succ_some hfd] at h
      exact ih h

theorem reduceLoop_mono : ∀ {f : Nat} {G H : Graph}, reduceLoop f G = some H →
    ∀ k, reduceLoop (f + k) G = some H := by
  intro f
  induction f with
  | zero => intro G H h; rw [reduceLoop_zero] at h; exact absurd h (by simp)
  | succ f ih =>
    intro G H h k
    have harith : f + 1 + k = (f + k) + 1 := by omega
    rw [harith]
    cases hfd : firstDegreeTwo G with
    | none =>
      rw [reduceLoop_succ_none hfd] at h
      rw [reduceLoop_succ_none hfd]
      exact h
    | some u =>
      rw [reduceLoop_succ_some hfd] at h
      rw [reduceLoop_succ_some hfd]
      exact ih h k

theorem reduceLoop_preserves (P : Graph → Prop)
    (hstep : ∀ G u, G.WF → G.NoSelfLoops → firstDegreeTwo G = some u →
      P G → P (reduceStep G u)) :
    ∀ (f : Nat) (G H : Graph), G.WF → G.NoSelfLoops → P G → reduceLoop f G = some H →
      P H ∧ H.WF ∧ H.NoSelfLoops := by
  intro f
  induction f with
  | zero => intro G H _ _ _ h; rw [reduceLoop_zero] at h; exact absurd h (by simp)
  | succ f ih =>
    intro G H hwf hns hP h
    cases hfd : firstDegreeTwo G with
    | none =>
      rw [reduceLoop_succ_none hfd] at h
      have hGH := Option.some.inj h
      subst hGH
      exact ⟨hP, hwf, hns⟩
    | some u =>
      rw [reduceLoop_succ_some hfd] at h
      obtain ⟨hwf', hns', -, -, -, -⟩ := reduceStep_spec hwf hns hfd
      exact ih _ _ hwf' hns' (hstep G u hwf hns hfd hP) h

theorem reduceLoop_terminates : ∀ (N : Nat) (G : Graph), G.nodes.length ≤ N → G.WF →
    G.NoSelfLoops → ∃ H, reduceLoop (G.nodes.length + 1) G = some H := by
  intro N
  induction N with
  | zero =>
    intro G hlen hwf hns
    have hnil : G.nodes = [] := List.length_eq_zero.mp (Nat.le_zero.mp hlen)
    have hfd : firstDegreeTwo G = none := by unfold firstDegreeTwo; rw [hnil]; rfl
    exact ⟨G, reduceLoop_succ_none hfd⟩
  | succ N ih =>
    intro G hlen hwf hns
    cases hfd : firstDegreeTwo G with
    | none => exact ⟨G, reduceLoop_succ_none hfd⟩
    | some u =>
      obtain ⟨hwf', hns', -, -, hlt, -⟩ := reduceStep_spec hwf hns hfd
      have hle : (reduceStep G u).nodes.length ≤ N := by omega
      obtain ⟨H, hH⟩ := ih (reduceStep G u) hle hwf' hns'
      refine ⟨H, ?_⟩
      rw [reduceLoop_succ_some hfd]
      have harith : G.nodes.length =
          ((reduceStep G u).nodes.length + 1) +
            (G.nodes.length - (reduceStep G u).nodes.length - 1) := by omega
      rw [harith]
      exact reduceLoop_mono hH _

/-! ## Isolate removal -/

theorem edges_removeIsolates (G : Graph) : G.removeIsolates.edges = G.edges := by
  have h : ∀ e ∈ G.edges, (decide (G.degree e.1 ≠ 0 ∧ G.degree e.2 ≠ 0)) = true := by
    intro e he
    rw [decide_eq_true_eq]
    have h1 := degree_pos_of_mem_fst he
    have h2 := degree_pos_of_mem_snd he
    omega
  exact List.filter_eq_self.mpr h

theorem degree_removeIsolates (G : Graph) (n : Nat) :
    G.removeIsolates.degree n = G.degree n := by
  unfold Graph.degree
  rw [edges_removeIsolates]

theorem mem_nodes_removeIsolates {G : Graph} {n : Nat} :
    n ∈ G.removeIsolates.nodes ↔ n ∈ G.nodes ∧ G.degree n ≠ 0 := by
  show n ∈ G.nodes.filter _ ↔ _
  rw [List.mem_filter]
  simp

theorem removeIsolates_eq_self {G : Graph} (h : ∀ n ∈ G.nodes, G.degree n ≠ 0) :
    G.removeIsolates = G := by
  refine graph_eq ?_ (edges_removeIsolates G)
  exact List.filter_eq_self.mpr (fun n hn => by rw [decide_eq_true_eq]; exact h n hn)

theorem get_kuratowski_minor_eq {G T : Graph}
    (h : reduceLoop (G.nodes.length + 1) G = some T) :
    get_kuratowski_minor G = some T.removeIsolates := by
  unfold get_kuratowski_minor
  rw [h]
  rfl

theorem minor_no_degree_two {G H : Graph} (h : get_kuratowski_minor G = some H) :
    (∀ n ∈ H.nodes, H.degree n ≠ 2) ∧ (∀ n ∈ H.nodes, H.degree n ≠ 0) := by
  unfold get_kuratowski_minor at h
  cases hT : reduceLoop (G.nodes.length + 1) G with
  | none => rw [hT] at h; simp at h
  | some T =>
    rw [hT] at h
    have h' : T.removeIsolates = H := by simpa using h
    subst h'
    have hexit := reduceLoop_exit hT
    rw [firstDegreeTwo_none_iff] at hexit
    constructor
    · intro n hn
      rw [degree_removeIsolates]
      exact hexit n (mem_nodes_removeIsolates.mp hn).1
    · intro n hn
      rw [degree_removeIsolates]
      exact (mem_nodes_removeIsolates.mp hn).2

theorem minor_fixed_point {H : Graph} (h2 : ∀ n ∈ H.nodes, H.degree n ≠ 2)
    (h0 : ∀ n ∈ H.nodes, H.degree n ≠ 0) : get_kuratowski_minor H = some H := by
  have hfd : firstDegreeTwo H = none := firstDegreeTwo_none_iff.mpr h2
  unfold get_kuratowski_minor
  rw [reduceLoop_succ_none hfd]
  simp [removeIsolates_eq_self h0]

/-- C2: for a well-formed graph with no self-loop, the reducer terminates —
the loop needs at most `|V|` contractions (fuel `|V| + 1` already returns
`some`) — and whenever the loop selects a degree-2 node `u`, the iteration
removes `u` together with all its incident edges while strictly shrinking
the node set. -/
theorem reducer_terminates_claim (G : Graph) (hwf : G.WF) (hns : G.NoSelfLoops) :
    (∃ H, get_kuratowski_minor G = some H) ∧
      ∀ u, firstDegreeTwo G = some u →
        u ∉ (reduceStep G u).nodes ∧
        (∀ e ∈ (reduceStep G u).edges, e.1 ≠ u ∧ e.2 ≠ u) ∧
        (reduceStep G u).nodes.length < G.nodes.length := by
  constructor
  · obtain ⟨T, hT⟩ := reduceLoop_terminates G.nodes.length G le_rfl hwf hns
    exact ⟨T.removeIsolates, get_kuratowski_minor_eq hT⟩
  · intro u hu
    obtain ⟨-, -, h3, h4, h5, -⟩ := reduceStep_spec hwf hns hu
    exact ⟨h3, h4, h5⟩

/-- Witness for C2 at the triangle. -/
theorem reducer_terminates_claim_witness :
    (∃ H, get_kuratowski_minor triangleG = some H) ∧
      ∀ u, firstDegreeTwo triangleG = some u →
        u ∉ (reduceStep triangleG u).nodes ∧
        (∀ e ∈ (reduceStep triangleG u).edges, e.1 ≠ u ∧ e.2 ≠ u) ∧
        (reduceStep triangleG u).nodes.length < triangleG.nodes.length :=
  reducer_terminates_claim triangleG (by decide) (by decide)

/-- C3: for a well-formed self-loop-free graph the reducer's output exists,
has no node of degree 2 and no isolated node, and is a fixed point of the
reducer. -/
theorem reducer_idempotent_claim (G : Graph) (hwf : G.WF) (hns : G.NoSelfLoops) :
    ∃ H, get_kuratowski_minor G = some H ∧
      (∀ n ∈ H.nodes, H.degree n ≠ 2) ∧ (∀ n ∈ H.nodes, H.degree n ≠ 0) ∧
      get_kuratowski_minor H = some H := by
  obtain ⟨T, hT⟩ := reduceLoop_terminates G.nodes.length G le_rfl hwf hns
  have hm := get_kuratowski_minor_eq hT
  obtain ⟨h2, h0⟩ := minor_no_degree_two hm
  exact ⟨T.removeIsolates, hm, h2, h0, minor_fixed_point h2 h0⟩

/-- Witness for C3 at the triangle. -/
theorem reducer_idempotent_claim_witness :
    ∃ H, get_kuratowski_minor triangleG = some H ∧
      (∀ n ∈ H.nodes, H.degree n ≠ 2) ∧ (∀ n ∈ H.nodes, H.degree n ≠ 0) ∧
      get_kuratowski_minor H = some H :=
  reducer_idempotent_claim triangleG (by decide) (by decide)

/-! ## The classifier claim -/

/-- C1: the classifier is exactly the first-match evaluation of the five
rules of the spec, in their stated priority order: (1) exactly 5 nodes and
complete; (2) exactly 6 nodes, bipartite, classes of size 3 and 3 (an
erroring or inconclusive bipartition test falls through); (3) at least 5
nodes and complete; (4) at least 6 nodes and bipartite; (5) the default
label. -/
theorem get_kuratowski_type_eq_firstMatch (G : Graph) :
    get_kuratowski_type G = firstMatchLabel classifierRules G := by
  unfold get_kuratowski_type firstMatchLabel classifierRules
  by_cases h1 : (G.nodes.length = 5 && is_complete_graph_custom G) = true <;>
    by_cases h2 : (G.nodes.length = 6 && isBipartite G && k33SizeCheck G) = true <;>
      by_cases h3 : (decide (5 ≤ G.nodes.length) && is_complete_graph_custom G) = true <;>
        by_cases h4 : (decide (6 ≤ G.nodes.length) && isBipartite G) = true <;>
          simp [h1, h2, h3, h4]

/-! ## Degree invariant along the reduction (for the cycle claim) -/

theorem degree_addEdge_other {G : Graph} {u v : Nat} (h : G.hasEdge u v = false)
    {w : Nat} (hw1 : w ≠ u) (hw2 : w ≠ v) : (G.addEdge u v).degree w = G.degree w := by
  rw [degree_addEdge_of_not h]
  have c1 : ¬((canon u v).1 = w) := by
    rcases canon_fst_mem u v with h' | h' <;> rw [h'] <;> omega
  have c2 : ¬((canon u v).2 = w) := by
    rcases canon_snd_mem u v with h' | h' <;> rw [h'] <;> omega
  rw [if_neg c1, if_neg c2]
  omega

theorem degree_addEdge_fst {G : Graph} {u v : Nat} (h : G.hasEdge u v = false)
    (hne : u ≠ v) : (G.addEdge u v).degree u = G.degree u + 1 := by
  rw [degree_addEdge_of_not h]
  rcases canon_or u v with hcan | hcan <;> rw [hcan] <;> simp [hne, Ne.symm hne]

theorem degree_addEdge_snd {G : Graph} {u v : Nat} (h : G.hasEdge u v = false)
    (hne : u ≠ v) : (G.addEdge u v).degree v = G.degree v + 1 := by
  rw [degree_addEdge_of_not h]
  rcases canon_or u v with hcan | hcan <;> rw [hcan] <;> simp [hne, Ne.symm hne]

theorem reduceStep_degree_le {G : Graph} {u : Nat} (hwf : G.WF) (hns : G.NoSelfLoops)
    (h : firstDegreeTwo G = some u) (hd2 : ∀ n, G.degree n ≤ 2) :
    ∀ n, (reduceStep G u).degree n ≤ 2 := by
  obtain ⟨hu, hd⟩ := firstDegreeTwo_spec h
  obtain ⟨v1, v2, hnb, hne, hm1, hm2, he1, he2, hu1, hu2⟩ := neighbors_pair hwf hns hd
  rw [reduceStep_eq hnb]
  by_cases hc : v1 ≠ v2 ∧ G.hasEdge v1 v2 = false
  · rw [if_pos hc]
    intro n
    by_cases hn : n = u
    · subst hn; rw [degree_removeNode_self]; omega
    · by_cases hv1 : n = v1
      · subst hv1
        have hstep := degree_removeNode_lt_of_hasEdge
          (G := G.addEdge n v2) (u := u) (w := n) (hasEdge_addEdge_mono he1)
        have hadd : (G.addEdge n v2).degree n = G.degree n + 1 :=
          degree_addEdge_fst hc.2 hc.1
        have := hd2 n
        omega
      · by_cases hv2 : n = v2
        · subst hv2
          have hstep := degree_removeNode_lt_of_hasEdge
            (G := G.addEdge v1 n) (u := u) (w := n) (hasEdge_addEdge_mono he2)
          have hadd : (G.addEdge v1 n).degree n = G.degree n + 1 :=
            degree_addEdge_snd hc.2 hc.1
          have := hd2 n
          omega
        · have hle := degree_removeNode_le (G.addEdge v1 v2) u n
          have heq : (G.addEdge v1 v2).degree n = G.degree n :=
            degree_addEdge_other hc.2 hv1 hv2
          have := hd2 n
          omega
  · rw [if_neg hc]
    intro n
    have hle := degree_removeNode_le G u n
    have := hd2 n
    omega

theorem get_kuratowski_type_small {H : Graph} (h : H.nodes.length < 5) :
    get_kuratowski_type H = "Kuratowski Minor" := by
  unfold get_kuratowski_type
  have h5 : ¬(H.nodes.length = 5) := by omega
  have h6 : ¬(H.nodes.length = 6) := by omega
  have h5' : ¬(5 ≤ H.nodes.length) := by omega
  have h6' : ¬(6 ≤ H.nodes.length) := by omega
  simp [h5, h6, h5', h6']

/-- C4 counterexample: the triangle is a fully degree-2 cycle, yet the
reducer returns a single edge on two nodes — not the empty graph. -/
theorem cycle_collapse_counterexample :
    (∀ n ∈ triangleG.nodes, triangleG.degree n = 2) ∧
      get_kuratowski_minor triangleG = some (Graph.mk [1, 2] [(1, 2)]) ∧
      get_kuratowski_minor triangleG ≠ some (Graph.mk [] []) := by decide

/-- C4 amended: a nonempty well-formed self-loop-free graph in which every
node has degree exactly 2 reduces to a *nonempty* graph in which every
remaining node has degree exactly 1 (a disjoint union of single edges, one
per cycle) — never the empty graph; on such an output with fewer than 5
nodes (e.g. the single-cycle case) the classifier returns the unresolved
label. -/
theorem cycle_reduces_to_matching_claim (G : Graph) (hwf : G.WF) (hns : G.NoSelfLoops)
    (hnonempty : G.nodes ≠ []) (h2 : ∀ n ∈ G.nodes, G.degree n = 2) :
    ∃ H, get_kuratowski_minor G = some H ∧ H.nodes ≠ [] ∧ H.edges ≠ [] ∧
      (∀ n ∈ H.nodes, H.degree n = 1) ∧
      (H.nodes.length < 5 → get_kuratowski_type H = "Kuratowski Minor") := by
  obtain ⟨T, hT⟩ := reduceLoop_terminates G.nodes.length G le_rfl hwf hns
  have hm := get_kuratowski_minor_eq hT
  have hPinit : ∀ n, G.degree n ≤ 2 := by
    intro n
    by_cases hmem : n ∈ G.nodes
    · rw [h2 n hmem]
    · rw [degree_eq_zero_of_not_mem hwf hmem]; omega
  obtain ⟨hPT, hwfT, hnsT⟩ := reduceLoop_preserves (fun X => ∀ n, X.degree n ≤ 2)
    (fun X u hwfX hnsX hfd hPX => reduceStep_degree_le hwfX hnsX hfd hPX)
    _ G T hwf hns hPinit hT
  have hQinit : G.edges ≠ [] := by
    obtain ⟨n, hn⟩ : ∃ n, n ∈ G.nodes := by
      cases hh : G.nodes with
      | nil => exact absurd hh hnonempty
      | cons a t => exact ⟨a, List.mem_cons_self a t⟩
    intro hemp
    have hdn := h2 n hn
    unfold Graph.degree at hdn
    rw [hemp] at hdn
    simp at hdn
  obtain ⟨hQT, -, -⟩ := reduceLoop_preserves (fun X => X.edges ≠ [])
    (fun X u hwfX hnsX hfd _ => (reduceStep_spec hwfX hnsX hfd).2.2.2.2.2)
    _ G T hwf hns hQinit hT
  have hexit := reduceLoop_exit hT
  rw [firstDegreeTwo_none_iff] at hexit
  refine ⟨T.removeIsolates, hm, ?_, ?_, ?_, ?_⟩
  · obtain ⟨e, he⟩ : ∃ e, e ∈ T.edges := by
      cases hh : T.edges with
      | nil => exact absurd hh hQT
      | cons a t => exact ⟨a, List.mem_cons_self a t⟩
    have hmem : e.1 ∈ T.removeIsolates.nodes := by
      rw [mem_nodes_removeIsolates]
      refine ⟨(hwfT.2.2 e he).2.1, ?_⟩
      have := degree_pos_of_mem_fst he
      omega
    exact List.ne_nil_of_mem hmem
  · rw [edges_removeIsolates]; exact hQT
  · intro n hn
    rw [degree_removeIsolates]
    obtain ⟨hnT, hd0⟩ := mem_nodes_removeIsolates.mp hn
    have hle := hPT n
    have hne2 := hexit n hnT
    omega
  · intro hsmall
    exact get_kuratowski_type_small hsmall

/-- Witness for the amended C4 at the triangle. -/
theorem cycle_reduces_to_matching_claim_witness :
    ∃ H, get_kuratowski_minor triangleG = some H ∧ H.nodes ≠ [] ∧ H.edges ≠ [] ∧
      (∀ n ∈ H.nodes, H.degree n = 1) ∧
      (H.nodes.length < 5 → get_kuratowski_type H = "Kuratowski Minor") :=
  cycle_reduces_to_matching_claim triangleG (by decide) (by decide) (by decide) (by decide)

/-! ## Graph construction (`G.add_edges_from`) -/

theorem build_foldl_wf : ∀ (es : List (Nat × Nat)) (G : Graph), G.WF →
    (es.foldl (fun G e => G.addEdge e.1 e.2) G).WF := by
  intro es
  induction es with
  | nil => intro G h; exact h
  | cons e t ih => intro G h; exact ih _ (WF_addEdge h e.1 e.2)

theorem build_foldl_nsl : ∀ (es : List (Nat × Nat)) (G : Graph), G.NoSelfLoops →
    (∀ e ∈ es, e.1 ≠ e.2) →
    (es.foldl (fun G e => G.addEdge e.1 e.2) G).NoSelfLoops := by
  intro es
  induction es with
  | nil => intro G h _; exact h
  | cons e t ih =>
    intro G h hes
    exact ih _ (NoSelfLoops_addEdge h (hes e (List.mem_cons_self e t)))
      (fun x hx => hes x (List.mem_cons_of_mem e hx))

/-- C6 counterexample: adding the pair `(0, 0)` is *not* a no-op — the graph
the code builds from the edge list `[(0, 0)]` contains the self-loop
`(0, 0)`, so the graph handed on does not satisfy the claimed invariant. -/
theorem build_selfloop_counterexample :
    (0, 0) ∈ (Graph.build [(0, 0)]).edges ∧ ¬ (Graph.build [(0, 0)]).NoSelfLoops := by
  decide

/-- C6 amended: the constructed graph never contains parallel edges (its
edge list holds each unordered pair at most once, in canonical form with
endpoints recorded as nodes), re-adding a present edge is a no-op
(idempotent), and the no-self-loop invariant holds exactly when the
caller-supplied edge list contains no pair with equal endpoints — a pair
`u = v` is recorded as a self-loop, not ignored. -/
theorem build_invariants_claim (es : List (Nat × Nat)) :
    (Graph.build es).WF ∧
      ((∀ e ∈ es, e.1 ≠ e.2) → (Graph.build es).NoSelfLoops) ∧
      (∀ u v, (Graph.build es).hasEdge u v = true →
        (Graph.build es).addEdge u v = Graph.build es) := by
  have hwf : (Graph.build es).WF := build_foldl_wf es Graph.empty (by decide)
  refine ⟨hwf, ?_, ?_⟩
  · intro h
    exact build_foldl_nsl es Graph.empty (by intro e he; simp [Graph.empty] at he) h
  · intro u v h
    exact addEdge_eq_self hwf h

/-- Witness for the amended C6: duplicate and reversed pairs collapse to one
edge, and re-adding it is a no-op. -/
theorem build_invariants_claim_witness :
    (Graph.build [(0, 1), (1, 0), (0, 1)]).NoSelfLoops ∧
      (Graph.build [(0, 1), (1, 0), (0, 1)]).addEdge 0 1 =
        Graph.build [(0, 1), (1, 0), (0, 1)] :=
  ⟨(build_invariants_claim [(0, 1), (1, 0), (0, 1)]).2.1 (by decide),
   (build_invariants_claim [(0, 1), (1, 0), (0, 1)]).2.2 0 1 (by decide)⟩

/-! ## The endpoint's handling of a parse failure -/

/-- C7 (code bug): on a malformed node entry the pipeline produces no
image at all and the endpoint answers with a client error, but the
structured parsing message is placed in the fifth returned slot
(`kuratowski_type`) while the endpoint surfaces the fourth (`title`),
which is `None` — so the client-error body carries no error message. -/
theorem parse_error_response_claim :
    planarity_api trivialOracle badGraphData = ApiResponse.clientError none ∧
      (visualize_planarity_test trivialOracle badGraphData).svg_original = none ∧
      (visualize_planarity_test trivialOracle badGraphData).svg_subdivision = none ∧
      (visualize_planarity_test trivialOracle badGraphData).svg_minor = none ∧
      (visualize_planarity_test trivialOracle badGraphData).title = none ∧
      (visualize_planarity_test trivialOracle badGraphData).kuratowski_type =
        some "Data parsing error" :=
  ⟨rfl, rfl, rfl, rfl, rfl, rfl⟩

/-! ## The reducer acts on a copy -/

theorem reduceLoopMem_succ (f : Nat) (s : ReducerMem) :
    reduceLoopMem (f + 1) s =
      match firstDegreeTwo s.gMinor with
      | none => some s
      | some u => reduceLoopMem f ⟨s.input, reduceStep s.gMinor u⟩ := rfl

theorem reduceLoopMem_eq : ∀ (f : Nat) (i m : Graph),
    reduceLoopMem f ⟨i, m⟩ =
      (reduceLoop f m).map (fun g => (⟨i, g⟩ : ReducerMem)) := by
  intro f
  induction f with
  | zero => intro i m; rfl
  | succ f ih =>
    intro i m
    rw [reduceLoopMem_succ, reduceLoop_succ]
    show (match firstDegreeTwo m with
      | none => some (⟨i, m⟩ : ReducerMem)
      | some u => reduceLoopMem f ⟨i, reduceStep m u⟩) = _
    cases hfd : firstDegreeTwo m with
    | none => rfl
    | some u => exact ih i (reduceStep m u)

/-- C10: the reducer operates on the copy `G_minor` only: whenever
`get_kuratowski_minor` returns, the caller's graph object still holds
exactly its original node list and edge list, and the value computed from
the copy is the pure reducer's result. -/
theorem reducer_preserves_input_claim (G : Graph) :
    ∀ s, get_kuratowski_minor_mem G = some s →
      s.input.nodes = G.nodes ∧ s.input.edges = G.edges ∧
      get_kuratowski_minor G = some s.gMinor := by
  intro s hs
  unfold get_kuratowski_minor_mem reducerInit at hs
  rw [reduceLoopMem_eq] at hs
  cases hT : reduceLoop (G.nodes.length + 1) G with
  | none => rw [hT] at hs; simp at hs
  | some T =>
    rw [hT] at hs
    have hs' : (⟨G, T.removeIsolates⟩ : ReducerMem) = s := by simpa using hs
    subst hs'
    exact ⟨rfl, rfl, get_kuratowski_minor_eq hT⟩

/-- Witness for C10 at the triangle. -/
theorem reducer_preserves_input_claim_witness :
    (ReducerMem.mk triangleG (Graph.mk [1, 2] [(1, 2)])).input.nodes = triangleG.nodes ∧
      (ReducerMem.mk triangleG (Graph.mk [1, 2] [(1, 2)])).input.edges = triangleG.edges ∧
      get_kuratowski_minor triangleG =
        some (ReducerMem.mk triangleG (Graph.mk [1, 2] [(1, 2)])).gMinor :=
  reducer_preserves_input_claim triangleG ⟨triangleG, ⟨[1, 2], [(1, 2)]⟩⟩ (by decide)

/-! ## The renderer's viewport -/

theorem foldl_min_le_init : ∀ (t : List ℚ) (a : ℚ), t.foldl min a ≤ a := by
  intro t
  induction t with
  | nil => intro a; simp
  | cons b t ih =>
    intro a
    calc t.foldl min (min a b) ≤ min a b := ih (min a b)
      _ ≤ a := min_le_left a b

theorem foldl_min_le_mem : ∀ (t : List ℚ) (a x : ℚ), x ∈ t → t.foldl min a ≤ x := by
  intro t
  induction t with
  | nil => intro a x h; simp at h
  | cons b t ih =>
    intro a x h
    rcases List.mem_cons.mp h with rfl | h'
    · calc t.foldl min (min a x) ≤ min a x := foldl_min_le_init t (min a x)
        _ ≤ x := min_le_right a x
    · exact ih (min a b) x h'

theorem init_le_foldl_max : ∀ (t : List ℚ) (a : ℚ), a ≤ t.foldl max a := by
  intro t
  induction t with
  | nil => intro a; simp
  | cons b t ih =>
    intro a
    calc a ≤ max a b := le_max_left a b
      _ ≤ t.foldl max (max a b) := ih (max a b)

theorem mem_le_foldl_max : ∀ (t : List ℚ) (a x : ℚ), x ∈ t → x ≤ t.foldl max a := by
  intro t
  induction t with
  | nil => intro a x h; simp at h
  | cons b t ih =>
    intro a x h
    rcases List.mem_cons.mp h with rfl | h'
    · calc x ≤ max a x := le_max_right a x
        _ ≤ t.foldl max (max a x) := init_le_foldl_max t (max a x)
    · exact ih (max a b) x h'

theorem qmin_le_of_mem {l : List ℚ} {x : ℚ} (h : x ∈ l) : qmin l ≤ x := by
  cases l with
  | nil => simp at h
  | cons a t =>
    unfold qmin
    rcases List.mem_cons.mp h with rfl | h'
    · exact foldl_min_le_init t x
    · exact foldl_min_le_mem t a x h'

theorem le_qmax_of_mem {l : List ℚ} {x : ℚ} (h : x ∈ l) : x ≤ qmax l := by
  cases l with
  | nil => simp at h
  | cons a t =>
    unfold qmax
    rcases List.mem_cons.mp h with rfl | h'
    · exact init_le_foldl_max t x
    · exact mem_le_foldl_max t a x h'

theorem qmin_le_qmax {l : List ℚ} (h : l ≠ []) : qmin l ≤ qmax l := by
  cases l with
  | nil => exact absurd rfl h
  | cons a t =>
    calc qmin (a :: t) ≤ a := qmin_le_of_mem (List.mem_cons_self a t)
      _ ≤ qmax (a :: t) := le_qmax_of_mem (List.mem_cons_self a t)

theorem span_pos {l : List ℚ} (h : l ≠ []) : 0 < span l := by
  unfold span
  split
  · rename_i hne
    rcases lt_or_eq_of_le (qmin_le_qmax h) with hlt | heq
    · linarith
    · exact absurd heq.symm hne
  · linarith

theorem qmax_le_qmin_add_span (l : List ℚ) :
    qmax l ≤ qmin l + span l := by
  unfold span
  split
  · linarith
  · rename_i heq
    have : qmax l = qmin l := by
      by_contra hc
      exact heq hc
    linarith

theorem span_eq_one_of_const {l : List ℚ} (h : ∀ a ∈ l, ∀ b ∈ l, a = b) :
    span l = 1 := by
  unfold span
  cases l with
  | nil => simp [qmin, qmax]
  | cons a t =>
    have hmin : qmin (a :: t) ∈ a :: t := by
      unfold qmin
      have : ∀ (t : List ℚ) (a : ℚ), t.foldl min a ∈ a :: t := by
        intro t
        induction t with
        | nil => intro a; simp [List.foldl]
        | cons b t ih =>
          intro a
          show t.foldl min (min a b) ∈ a :: b :: t
          rcases List.mem_cons.mp (ih (min a b)) with h' | h'
          · rw [h']
            rcases min_choice a b with hm | hm <;> rw [hm]
            · exact List.mem_cons_self _ _
            · exact List.mem_cons_of_mem _ (List.mem_cons_self _ _)
          · exact List.mem_cons_of_mem _ (List.mem_cons_of_mem _ h')
      exact this t a
    have hmax : qmax (a :: t) ∈ a :: t := by
      unfold qmax
      have : ∀ (t : List ℚ) (a : ℚ), t.foldl max a ∈ a :: t := by
        intro t
        induction t with
        | nil => intro a; simp [List.foldl]
        | cons b t ih =>
          intro a
          show t.foldl max (max a b) ∈ a :: b :: t
          rcases List.mem_cons.mp (ih (max a b)) with h' | h'
          · rw [h']
            rcases max_choice a b with hm | hm <;> rw [hm]
            · exact List.mem_cons_self _ _
            · exact List.mem_cons_of_mem _ (List.mem_cons_self _ _)
          · exact List.mem_cons_of_mem _ (List.mem_cons_of_mem _ h')
      exact this t a
    rw [if_neg]
    intro hne
    exact hne (h _ hmax _ hmin)

theorem xcoords_ne_nil (pos : PosMap) : xcoords pos ≠ [] := by
  unfold xcoords
  split
  · simp
  · rename_i h
    intro hmap
    have : pos = [] := by
      cases pos with
      | nil => rfl
      | cons p t => simp at hmap
    subst this
    simp at h

theorem ycoords_ne_nil (pos : PosMap) : ycoords pos ≠ [] := by
  unfold ycoords
  split
  · simp
  · rename_i h
    intro hmap
    have : pos = [] := by
      cases pos with
      | nil => rfl
      | cons p t => simp at hmap
    subst this
    simp at h

theorem lookupPos_mem {pos : PosMap} {n : Nat} {xy : ℚ × ℚ}
    (h : lookupPos pos n = some xy) : (n, xy) ∈ pos := by
  unfold lookupPos at h
  cases hf : pos.find? (fun p => decide (p.1 = n)) with
  | none => rw [hf] at h; simp at h
  | some p0 =>
    rw [hf] at h
    simp only [Option.map_some'] at h
    have hxy : p0.2 = xy := Option.some.inj h
    have hp := List.find?_some hf
    have hm := List.mem_of_find?_eq_some hf
    rw [decide_eq_true_eq] at hp
    have hp0 : p0 = (n, xy) := by
      cases p0
      simp_all
    rwa [hp0] at hm

theorem np_minX (pos : PosMap) :
    (normalize_positions pos).minX = qmin (xcoords pos) := rfl

theorem np_minY (pos : PosMap) :
    (normalize_positions pos).minY = qmin (ycoords pos) := rfl

theorem np_w (pos : PosMap) : (normalize_positions pos).w = span (xcoords pos) := rfl

theorem np_h (pos : PosMap) : (normalize_positions pos).h = span (ycoords pos) := rfl

theorem cvb_minX (pos : PosMap) : (computeViewBox pos).minX =
    qmin (xcoords pos) - max (span (xcoords pos)) (span (ycoords pos)) * (12 / 100) := rfl

theorem cvb_minY (pos : PosMap) : (computeViewBox pos).minY =
    qmin (ycoords pos) - max (span (xcoords pos)) (span (ycoords pos)) * (12 / 100) := rfl

theorem cvb_w (pos : PosMap) : (computeViewBox pos).w =
    span (xcoords pos) +
      2 * (max (span (xcoords pos)) (span (ycoords pos)) * (12 / 100)) := rfl

theorem cvb_h (pos : PosMap) : (computeViewBox pos).h =
    span (ycoords pos) +
      2 * (max (span (xcoords pos)) (span (ycoords pos)) * (12 / 100)) := rfl

/-- C8: the emitted viewport is never degenerate (both spans positive),
an all-equal coordinate axis is replaced by a unit span, the viewport is
the bounding box padded on every side by 12% of the larger span, and every
positioned coordinate lies within the viewBox bounds. -/
theorem viewport_claim (pos : PosMap) :
    (0 < (computeViewBox pos).w ∧ 0 < (computeViewBox pos).h) ∧
      ((∀ p ∈ pos, ∀ q ∈ pos, p.2.1 = q.2.1) → (normalize_positions pos).w = 1) ∧
      ((∀ p ∈ pos, ∀ q ∈ pos, p.2.2 = q.2.2) → (normalize_positions pos).h = 1) ∧
      (computeViewBox pos).minX = (normalize_positions pos).minX -
        max (normalize_positions pos).w (normalize_positions pos).h * (12 / 100) ∧
      (computeViewBox pos).w = (normalize_positions pos).w +
        2 * (max (normalize_positions pos).w (normalize_positions pos).h * (12 / 100)) ∧
      (computeViewBox pos).minY = (normalize_positions pos).minY -
        max (normalize_positions pos).w (normalize_positions pos).h * (12 / 100) ∧
      (computeViewBox pos).h = (normalize_positions pos).h +
        2 * (max (normalize_positions pos).w (normalize_positions pos).h * (12 / 100)) ∧
      (∀ n x y, lookupPos pos n = some (x, y) →
        (computeViewBox pos).minX ≤ x ∧
          x ≤ (computeViewBox pos).minX + (computeViewBox pos).w ∧
          (computeViewBox pos).minY ≤ y ∧
          y ≤ (computeViewBox pos).minY + (computeViewBox pos).h) := by
  have hxne := xcoords_ne_nil pos
  have hyne := ycoords_ne_nil pos
  have hwpos : 0 < span (xcoords pos) := span_pos hxne
  have hhpos : 0 < span (ycoords pos) := span_pos hyne
  have hpad : 0 ≤ max (span (xcoords pos)) (span (ycoords pos)) * (12 / 100) := by
    have h1 : 0 < max (span (xcoords pos)) (span (ycoords pos)) :=
      lt_max_of_lt_left hwpos
    positivity
  refine ⟨⟨?_, ?_⟩, ?_, ?_, ?_, ?_, ?_, ?_, ?_⟩
  · rw [cvb_w]; linarith
  · rw [cvb_h]; linarith
  · intro h
    rw [np_w]
    apply span_eq_one_of_const
    intro a ha b hb
    unfold xcoords at ha hb
    cases hpos : pos.isEmpty with
    | true => rw [hpos] at ha hb; simp at ha hb; rw [ha, hb]
    | false =>
      rw [hpos] at ha hb
      simp only [Bool.false_eq_true, if_false] at ha hb
      obtain ⟨pa, hpa, hpa2⟩ := List.mem_map.mp ha
      obtain ⟨pb, hpb, hpb2⟩ := List.mem_map.mp hb
      rw [← hpa2, ← hpb2]
      exact h _ hpa _ hpb
  · intro h
    rw [np_h]
    apply span_eq_one_of_const
    intro a ha b hb
    unfold ycoords at ha hb
    cases hpos : pos.isEmpty with
    | true => rw [hpos] at ha hb; simp at ha hb; rw [ha, hb]
    | false =>
      rw [hpos] at ha hb
      simp only [Bool.false_eq_true, if_false] at ha hb
      obtain ⟨pa, hpa, hpa2⟩ := List.mem_map.mp ha
      obtain ⟨pb, hpb, hpb2⟩ := List.mem_map.mp hb
      rw [← hpa2, ← hpb2]
      exact h _ hpa _ hpb
  · rw [cvb_minX, np_minX, np_w, np_h]
  · rw [cvb_w, np_w, np_h]
  · rw [cvb_minY, np_minY, np_w, np_h]
  · rw [cvb_h, np_w, np_h]
  · intro n x y hl
    have hmem := lookupPos_mem hl
    have hempty : pos.isEmpty = false := by
      cases pos with
      | nil => simp at hmem
      | cons p t => rfl
    have hx : x ∈ xcoords pos := by
      unfold xcoords
      rw [hempty]
      simp only [Bool.false_eq_true, if_false]
      exact List.mem_map.mpr ⟨(n, x, y), hmem, rfl⟩
    have hy : y ∈ ycoords pos := by
      unfold ycoords
      rw [hempty]
      simp only [Bool.false_eq_true, if_false]
      exact List.mem_map.mpr ⟨(n, x, y), hmem, rfl⟩
    have hx1 := qmin_le_of_mem hx
    have hx2 := le_qmax_of_mem hx
    have hx3 := qmax_le_qmin_add_span (xcoords pos)
    have hy1 := qmin_le_of_mem hy
    have hy2 := le_qmax_of_mem hy
    have hy3 := qmax_le_qmin_add_span (ycoords pos)
    rw [cvb_minX, cvb_minY, cvb_w, cvb_h]
    refine ⟨by linarith, by linarith, by linarith, by linarith⟩

/-- Witness for C8 at the three-node position map. -/
theorem viewport_claim_witness :
    (0 < (computeViewBox cexPos).w ∧ 0 < (computeViewBox cexPos).h) ∧
      ((computeViewBox cexPos).minX ≤ 0 ∧
        (0 : ℚ) ≤ (computeViewBox cexPos).minX + (computeViewBox cexPos).w ∧
        (computeViewBox cexPos).minY ≤ 0 ∧
        (0 : ℚ) ≤ (computeViewBox cexPos).minY + (computeViewBox cexPos).h) :=
  ⟨(viewport_claim cexPos).1,
   (viewport_claim cexPos).2.2.2.2.2.2.2 0 0 0 (by decide)⟩

/-! ## The renderer's edge lines -/

theorem mem_normalizeHighlights_canon {hl : List (Nat × Nat)} {e : Nat × Nat}
    (h : e ∈ normalizeHighlights hl) : canon e.1 e.2 = e := by
  unfold normalizeHighlights at h
  rw [List.mem_dedup, List.mem_map] at h
  obtain ⟨a, -, rfl⟩ := h
  exact canon_of_le (canon_fst_le a.1 a.2)

theorem normalLines_sound {G : Graph} {pos : PosMap} {hs : List (Nat × Nat)}
    {l : EdgeLine} (h : l ∈ normalLines G pos hs) :
    (l.u, l.v) ∈ G.edges ∧ lookupPos pos l.u = some (l.x1, l.y1) ∧
      lookupPos pos l.v = some (l.x2, l.y2) ∧ canon l.u l.v ∉ hs ∧
      l.highlighted = false := by
  unfold normalLines at h
  rw [List.mem_filterMap] at h
  obtain ⟨e, he, hfa⟩ := h
  cases h1 : lookupPos pos e.1 with
  | none => rw [h1] at hfa; exact absurd hfa (by simp)
  | some p1 =>
    cases h2 : lookupPos pos e.2 with
    | none => rw [h1, h2] at hfa; exact absurd hfa (by simp)
    | some p2 =>
      rw [h1, h2] at hfa
      change (if canon e.1 e.2 ∈ hs then none
        else some ⟨e.1, e.2, p1.1, p1.2, p2.1, p2.2, false⟩) = some l at hfa
      by_cases hin : canon e.1 e.2 ∈ hs
      · rw [if_pos hin] at hfa; exact absurd hfa (by simp)
      · rw [if_neg hin] at hfa
        have hl' := Option.some.inj hfa
        subst hl'
        exact ⟨by simpa using he, by rw [h1], by rw [h2], hin, rfl⟩

theorem highlightLines_sound {pos : PosMap} {hs : List (Nat × Nat)} {l : EdgeLine}
    (h : l ∈ highlightLines pos hs) :
    (l.u, l.v) ∈ hs ∧ lookupPos pos l.u = some (l.x1, l.y1) ∧
      lookupPos pos l.v = some (l.x2, l.y2) ∧ l.highlighted = true := by
  unfold highlightLines at h
  rw [List.mem_filterMap] at h
  obtain ⟨e, he, hfa⟩ := h
  cases h1 : lookupPos pos e.1 with
  | none => rw [h1] at hfa; exact absurd hfa (by simp)
  | some p1 =>
    cases h2 : lookupPos pos e.2 with
    | none => rw [h1, h2] at hfa; exact absurd hfa (by simp)
    | some p2 =>
      rw [h1, h2] at hfa
      change some (⟨e.1, e.2, p1.1, p1.2, p2.1, p2.2, true⟩ : EdgeLine) = some l at hfa
      have hl' := Option.some.inj hfa
      subst hl'
      exact ⟨by simpa using he, by rw [h1], by rw [h2], rfl⟩

theorem normalLines_complete {G : Graph} {pos : PosMap} {hs : List (Nat × Nat)}
    {e : Nat × Nat} (he : e ∈ G.edges) {x1 y1 x2 y2 : ℚ}
    (h1 : lookupPos pos e.1 = some (x1, y1)) (h2 : lookupPos pos e.2 = some (x2, y2))
    (hin : canon e.1 e.2 ∉ hs) :
    (⟨e.1, e.2, x1, y1, x2, y2, false⟩ : EdgeLine) ∈ normalLines G pos hs := by
  unfold normalLines
  rw [List.mem_filterMap]
  refine ⟨e, he, ?_⟩
  rw [h1, h2]
  change (if canon e.1 e.2 ∈ hs then none
    else some (⟨e.1, e.2, x1, y1, x2, y2, false⟩ : EdgeLine)) =
      some (⟨e.1, e.2, x1, y1, x2, y2, false⟩ : EdgeLine)
  rw [if_neg hin]

theorem highlightLines_complete {pos : PosMap} {hs : List (Nat × Nat)}
    {e : Nat × Nat} (he : e ∈ hs) {x1 y1 x2 y2 : ℚ}
    (h1 : lookupPos pos e.1 = some (x1, y1)) (h2 : lookupPos pos e.2 = some (x2, y2)) :
    (⟨e.1, e.2, x1, y1, x2, y2, true⟩ : EdgeLine) ∈ highlightLines pos hs := by
  unfold highlightLines
  rw [List.mem_filterMap]
  refine ⟨e, he, ?_⟩
  rw [h1, h2]

/-- C5 counterexample: in the one-edge graph `0 — 1` with nodes 0, 1, 2 all
positioned, highlighting the non-edge pair `(2, 1)` emits a highlighted
line for it — it is *not* a no-op, so the emitted edge lines are not the
graph's own edges. -/
theorem highlight_non_edge_counterexample :
    (⟨1, 2, 1, 0, 0, 1, true⟩ : EdgeLine) ∈ edgeLines cexGraph cexPos [(2, 1)] ∧
      (1, 2) ∉ cexGraph.edges ∧ (2, 1) ∉ cexGraph.edges := by decide

/-- C5 amended: the emitted lines are exactly one plain line per positioned
graph edge outside the (normalised) highlight set plus one emphasised line
per positioned highlight pair — whether or not that pair is a graph edge;
a highlight pair that is not a graph edge is a no-op only when one of its
endpoints lacks a position. -/
theorem edgeLines_claim (G : Graph) (pos : PosMap) (hl : List (Nat × Nat)) :
    (∀ l ∈ edgeLines G pos hl,
        lookupPos pos l.u = some (l.x1, l.y1) ∧ lookupPos pos l.v = some (l.x2, l.y2) ∧
        (l.highlighted = true ↔ canon l.u l.v ∈ normalizeHighlights hl) ∧
        (l.highlighted = false → (l.u, l.v) ∈ G.edges)) ∧
      (∀ e ∈ G.edges, ∀ x1 y1 x2 y2 : ℚ, lookupPos pos e.1 = some (x1, y1) →
        lookupPos pos e.2 = some (x2, y2) → canon e.1 e.2 ∉ normalizeHighlights hl →
        (⟨e.1, e.2, x1, y1, x2, y2, false⟩ : EdgeLine) ∈ edgeLines G pos hl) ∧
      (∀ e ∈ normalizeHighlights hl, ∀ x1 y1 x2 y2 : ℚ,
        lookupPos pos e.1 = some (x1, y1) → lookupPos pos e.2 = some (x2, y2) →
        (⟨e.1, e.2, x1, y1, x2, y2, true⟩ : EdgeLine) ∈ edgeLines G pos hl) := by
  refine ⟨?_, ?_, ?_⟩
  · intro l hml
    rcases List.mem_append.mp hml with h | h
    · obtain ⟨hedge, h1, h2, hnin, hflag⟩ := normalLines_sound h
      refine ⟨h1, h2, ?_, fun _ => hedge⟩
      rw [hflag]
      constructor
      · intro hft; exact absurd hft (by simp)
      · intro hmem; exact absurd hmem hnin
    · obtain ⟨hmem, h1, h2, hflag⟩ := highlightLines_sound h
      refine ⟨h1, h2, ?_, ?_⟩
      · rw [hflag]
        constructor
        · intro _
          rw [mem_normalizeHighlights_canon hmem]
          exact hmem
        · intro _; rfl
      · intro hfalse
        rw [hflag] at hfalse
        exact absurd hfalse (by simp)
  · intro e he x1 y1 x2 y2 h1 h2 hnin
    exact List.mem_append.mpr (Or.inl (normalLines_complete he h1 h2 hnin))
  · intro e he x1 y1 x2 y2 h1 h2
    exact List.mem_append.mpr (Or.inr (highlightLines_complete he h1 h2))

/-- Witness for the amended C5: the graph edge `(0, 1)` is emitted as a
plain line in the counterexample configuration. -/
theorem edgeLines_claim_witness :
    (⟨0, 1, 0, 0, 1, 0, false⟩ : EdgeLine) ∈ edgeLines cexGraph cexPos [(2, 1)] :=
  (edgeLines_claim cexGraph cexPos [(2, 1)]).2.1 (0, 1) (by decide) 0 0 1 0
    (by decide) (by decide) (by decide)

/-! ## Nodes without positions are skipped -/

/-- C9: a node with no entry in the position map is silently skipped — the
(total, never-failing) renderer emits no circle or label for it and no edge
line with it as an endpoint. -/
theorem missing_position_skipped_claim (G : Graph) (pos : PosMap)
    (hl : List (Nat × Nat)) (title : Option String) {n : Nat}
    (_hnode : n ∈ G.nodes) (hn : lookupPos pos n = none) :
    (∀ l ∈ (graph_to_svg G pos hl title).lines, l.u ≠ n ∧ l.v ≠ n) ∧
      (∀ c ∈ (graph_to_svg G pos hl title).circles, c.node ≠ n) := by
  constructor
  · intro l hml
    obtain ⟨h1, h2, -, -⟩ := (edgeLines_claim G pos hl).1 l hml
    constructor
    · intro hun
      rw [hun, hn] at h1
      exact absurd h1 (by simp)
    · intro hvn
      rw [hvn, hn] at h2
      exact absurd h2 (by simp)
  · intro c hmc
    have hmc' : c ∈ nodeCircles G pos := hmc
    unfold nodeCircles at hmc'
    rw [List.mem_filterMap] at hmc'
    obtain ⟨m, hm, hsome⟩ := hmc'
    cases hlm : lookupPos pos m with
    | none => rw [hlm] at hsome; exact absurd hsome (by simp)
    | some p =>
      rw [hlm] at hsome
      have hc : (⟨m, p.1, p.2⟩ : NodeCircle) = c := Option.some.inj hsome
      intro hcn
      rw [← hc] at hcn
      have hmn : m = n := hcn
      rw [hmn, hn] at hlm
      exact absurd hlm (by simp)

/-- Witness for C9: node 3 of the graph `0—1, 1—3` has no position in the
three-point map. -/
theorem missing_position_skipped_claim_witness :
    (∀ l ∈ (graph_to_svg (Graph.build [(0, 1), (1, 3)]) cexPos [] none).lines,
        l.u ≠ 3 ∧ l.v ≠ 3) ∧
      (∀ c ∈ (graph_to_svg (Graph.build [(0, 1), (1, 3)]) cexPos [] none).circles,
        c.node ≠ 3) :=
  missing_position_skipped_claim (Graph.build [(0, 1), (1, 3)]) cexPos [] none
    (by decide) (by decide)

end Planarity
